import Mathlib

/-!
# Verification of the bustub buffer-pool / LRU-K replacer / immutable trie core

Shallow embedding of:
* `src/primer/trie.cpp` (`Trie::Get`, `Trie::Put`, `Trie::Remove`)
* `src/buffer/lru_k_replacer.cpp` (`Evict`, `RecordAccess`, `SetEvictable`, `Remove`, `Size`)
* `src/buffer/buffer_pool_manager.cpp` (`NewPage`, `FetchPage`, `UnpinPage`, `FlushPage`)

Machine integers (`size_t`, timestamps, pin counts) are modelled as `Nat`;
`page_id_t` is modelled as `Int` with `INVALID_PAGE_ID = -1`.
-/

set_option maxRecDepth 100000

namespace Bustub

/-- A key byte (`char` in the C++ sources). -/
abbrev Byte := Fin 256

/-! ## Immutable trie (`src/primer/trie.cpp`)

Modelled from the spec: the node type itself comes from the repository's
`trie.h` header, which is not under `src/`.  Per the spec (§3 "Trie node",
§4.3) a node owns a mapping from a single byte to a child node and is either
*plain* or *valued*; we merge `TrieNodeWithValue<T>`'s `is_value_node_` flag
and its (never-null) `value_` pointer into a single `Option V` field, and the
virtual `Clone()` (which copies children and, for valued nodes, the value) is
the identity copy in this pure embedding.  The child map is modelled as a
total function `Byte → Option node`. -/
inductive TrieNode (V : Type) : Type where
  | mk (children : Byte → Option (TrieNode V)) (value : Option V)

namespace TrieNode

def children : TrieNode V → (Byte → Option (TrieNode V))
  | mk c _ => c

def value : TrieNode V → Option V
  | mk _ v => v

end TrieNode

/-- The empty child map (`std::map<char, …>` default-constructed). -/
def emptyCh (V : Type) : Byte → Option (TrieNode V) := fun _ => none

/-- `children_[b] = n` (insert-or-assign in the `std::map`). -/
def setCh (ch : Byte → Option (TrieNode V)) (b : Byte) (n : TrieNode V) :
    Byte → Option (TrieNode V) :=
  fun b' => if b' = b then some n else ch b'

/-- `children_.erase(b)`. -/
def eraseCh (ch : Byte → Option (TrieNode V)) (b : Byte) :
    Byte → Option (TrieNode V) :=
  fun b' => if b' = b then none else ch b'

/-- `children_.size()` (number of mapped bytes). -/
def chCount (ch : Byte → Option (TrieNode V)) : Nat :=
  (List.finRange 256).countP (fun b => (ch b).isSome)

/-- A `Trie` is a handle to an optional root node (`root_`). -/
structure Trie (V : Type) where
  root : Option (TrieNode V)

/-- The empty trie (`Trie()`). -/
def Trie.empty (V : Type) : Trie V := ⟨none⟩

/-- The walk loop of `Trie::Get` (trie.cpp lines 14-25): descend one byte at
a time; a missing child makes the current node null and the loop stops. -/
def walk : Option (TrieNode V) → List Byte → Option (TrieNode V)
  | none, _ => none
  | some n, [] => some n
  | some n, b :: rest => walk (n.children b) rest

/-- The tail of `Trie::Get` after the walk (trie.cpp lines 27-44): null node
gives null; else return the node's value if it is a valued node.  (The C++
`is_value_node_` check, `dynamic_cast` and null-pointer check collapse to
`Option.value` in the single-value-type embedding.) -/
def getRoot (r : Option (TrieNode V)) (key : List Byte) : Option V :=
  match walk r key with
  | none => none
  | some n => n.value

/-- `Trie::Get` (trie.cpp lines 7-45). -/
def Trie.get (t : Trie V) (key : List Byte) : Option V :=
  getRoot t.root key

/-- Children of an optional node: the C++ code reads `root_->children_` when
the pointer is non-null and uses a fresh empty node otherwise. -/
def chOf : Option (TrieNode V) → Byte → Option (TrieNode V)
  | none => emptyCh V
  | some n => n.children

/-- Value of an optional node (`Clone()` preserves the value of a valued
node; a freshly created `TrieNode` has none). -/
def valOf : Option (TrieNode V) → Option V
  | none => none
  | some n => n.value

/-- The path-cloning core of `Trie::Put` (trie.cpp lines 47-103), one
recursive step per key byte.
* empty key: a valued node whose children are those of the prior node
  (lines 54-63);
* last byte (`rest = []`): the new valued node keeps the existing child's
  children (lines 88-100);
* interior byte: clone the child (or make a fresh plain node) and continue
  (lines 72-86).  Clones preserve the node's own value. -/
def putNode : Option (TrieNode V) → List Byte → V → TrieNode V
  | root, [], v => ⟨chOf root, some v⟩
  | root, b :: rest, v =>
      ⟨setCh (chOf root) b (putNode (chOf root b) rest v), valOf root⟩

/-- `Trie::Put` (trie.cpp lines 47-103). -/
def Trie.put (t : Trie V) (key : List Byte) (v : V) : Trie V :=
  ⟨some (putNode t.root key v)⟩

/-- The recursive core of `Trie::Remove` (trie.cpp lines 105-164).
Result `none`: the key was not found, the original trie is returned
unchanged (lines 117-119, 136-138).  Result `some repl`: `repl` is the
replacement for this subtree — `some none` means the subtree is dropped
entirely (leaf removal plus the empty-ancestor collapse loop of lines
129-131 and 141-147), `some (some n')` is the rebuilt node (the clone-and-
rewire loop of lines 149-161).  The collapse test `children.size() < 2 &&
!is_value_node_` is taken on the node's children *before* the erase, exactly
as in line 142. -/
def removeNode (n : TrieNode V) : List Byte → Option (Option (TrieNode V))
  | [] =>
      if chCount n.children = 0 then some none
      else if n.value.isSome then some (some ⟨n.children, none⟩)
      else none
  | b :: rest =>
      match n.children b with
      | none => none
      | some c =>
          match removeNode c rest with
          | none => none
          | some (some c') => some (some ⟨setCh n.children b c', n.value⟩)
          | some none =>
              if chCount n.children < 2 ∧ n.value.isNone then some none
              else some (some ⟨eraseCh n.children b, n.value⟩)

/-- `Trie::Remove` (trie.cpp lines 105-164): null root returns the same trie
(lines 106-108); a failed search returns the same trie; otherwise the
rebuilt (possibly null) root is wrapped (line 163). -/
def Trie.remove (t : Trie V) (key : List Byte) : Trie V :=
  match t.root with
  | none => t
  | some r =>
      match removeNode r key with
      | none => t
      | some repl => ⟨repl⟩

/-- C3 counterexample input: the byte string "hello". -/
def helloKey : List Byte := [104, 101, 108, 108, 111]

/-! ## LRU-K replacer (`src/buffer/lru_k_replacer.cpp`)

Timestamps and sizes (`size_t`) are `Nat`; frame ids are `Nat`.  The
`std::unordered_map` `node_store_` is an association list with unique keys;
`Evict`'s linear scan is the fold over that list in list order. -/

/-- `LRUKNode` (from `lru_k_replacer.h`): access history (front = oldest,
`push_back` appends), the `k_` counter tracking the history length, and the
evictable flag. -/
structure LRUKNode where
  fid : Nat
  k : Nat
  history : List Nat
  isEvictable : Bool
deriving DecidableEq

/-- `LRUKReplacer` state: capacity `replacer_size_`, the `k` parameter, the
node store, `curr_size_` (count of evictable nodes) and the logical clock
`current_timestamp_`. -/
structure LRUKReplacer where
  replacerSize : Nat
  kParam : Nat
  nodeStore : List (Nat × LRUKNode)
  currSize : Nat
  currentTimestamp : Nat
deriving DecidableEq

/-- `node_store_.find(fid)`. -/
def lookupNode (fid : Nat) : List (Nat × LRUKNode) → Option LRUKNode
  | [] => none
  | e :: rest => if e.1 = fid then some e.2 else lookupNode fid rest

/-- `node_store_.erase(fid)` (keys are unique). -/
def eraseNode (fid : Nat) (l : List (Nat × LRUKNode)) : List (Nat × LRUKNode) :=
  l.filter (fun e => e.1 ≠ fid)

/-- In-place update of the node stored under `fid` (mutation through the
`find` iterator in the C++ code). -/
def updateNode (fid : Nat) (n : LRUKNode) : List (Nat × LRUKNode) → List (Nat × LRUKNode)
  | [] => []
  | e :: rest => if e.1 = fid then (e.1, n) :: rest else e :: updateNode fid n rest

/-- Accumulator of `Evict`'s scan: `evict_frame_id` (uninitialized in the
C++ code, hence `Option` — it is read only after some iteration wrote it),
`k_dist_max` and `k_dist_inf`. -/
structure EvictAcc where
  evictId : Option Nat
  kDistMax : Nat
  kDistInf : Bool
deriving DecidableEq

/-- One iteration of the scan in `LRUKReplacer::Evict` (lru_k_replacer.cpp
lines 33-55).  `history_.front()` is the head of the history (the oldest
retained timestamp); `headD 0` is never the default on reachable states
(histories are nonempty). -/
def evictStep (cur kp : Nat) (acc : EvictAcc) (e : Nat × LRUKNode) : EvictAcc :=
  if !e.2.isEvictable then acc
  else
    let kDist := cur - e.2.history.headD 0
    if e.2.history.length < kp then
      if !acc.kDistInf then ⟨some e.1, kDist, true⟩
      else if kDist > acc.kDistMax then ⟨some e.1, kDist, true⟩
      else acc
    else
      if !acc.kDistInf ∧ kDist > acc.kDistMax then ⟨some e.1, kDist, acc.kDistInf⟩
      else acc

/-- The tail of `LRUKReplacer::Evict` after the scan (lru_k_replacer.cpp
lines 57-67): a zero best distance means no candidate was found (`false`),
otherwise the chosen frame is erased and returned.  Reading `evict_frame_id`
when it was never written (`evictId = none`) cannot happen on reachable
states; it is mapped to the `false` return. -/
def evictFinish (s : LRUKReplacer) (acc : EvictAcc) : Option Nat × LRUKReplacer :=
  if acc.kDistMax = 0 then (none, s)
  else
    match acc.evictId with
    | none => (none, s)
    | some f =>
        (some f, { s with nodeStore := eraseNode f s.nodeStore, currSize := s.currSize - 1 })

/-- `LRUKReplacer::Evict` (lru_k_replacer.cpp lines 20-68).  Returns the
evicted frame id (or `none` for a `false` return) together with the state
after the call. -/
def evict (s : LRUKReplacer) : Option Nat × LRUKReplacer :=
  if s.currSize = 0 then (none, s)
  else evictFinish s
    (s.nodeStore.foldl (evictStep s.currentTimestamp s.kParam) ⟨none, 0, false⟩)

/-- `LRUKReplacer::RecordAccess` (lru_k_replacer.cpp lines 70-97).  `none`
models the fatal `BUSTUB_ASSERT(false, "Replacer is full")`, fired whenever
`curr_size_ >= replacer_size_` at entry, before the frame is looked up. -/
def recordAccess (s : LRUKReplacer) (fid : Nat) : Option LRUKReplacer :=
  if s.replacerSize ≤ s.currSize then none
  else
    match lookupNode fid s.nodeStore with
    | none =>
        some { s with
                nodeStore := s.nodeStore ++ [(fid, ⟨fid, 1, [s.currentTimestamp], true⟩)],
                currSize := s.currSize + 1,
                currentTimestamp := s.currentTimestamp + 1 }
    | some n =>
        let n' := if n.k < s.kParam
          then { n with k := n.k + 1, history := n.history ++ [s.currentTimestamp] }
          else { n with history := n.history.tail ++ [s.currentTimestamp] }
        some { s with
                nodeStore := updateNode fid n' s.nodeStore,
                currentTimestamp := s.currentTimestamp + 1 }

/-- `LRUKReplacer::SetEvictable` (lru_k_replacer.cpp lines 99-120). -/
def setEvictable (s : LRUKReplacer) (fid : Nat) (b : Bool) : LRUKReplacer :=
  match lookupNode fid s.nodeStore with
  | none => s
  | some n =>
      if n.isEvictable = b then s
      else
        { s with
            nodeStore := updateNode fid { n with isEvictable := b } s.nodeStore,
            currSize := if b then s.currSize + 1 else s.currSize - 1 }

/-- `LRUKReplacer::Remove` (lru_k_replacer.cpp lines 122-139): unknown
frames and tracked non-evictable frames are silently ignored. -/
def removeFrame (s : LRUKReplacer) (fid : Nat) : LRUKReplacer :=
  match lookupNode fid s.nodeStore with
  | none => s
  | some n =>
      if !n.isEvictable then s
      else { s with nodeStore := eraseNode fid s.nodeStore, currSize := s.currSize - 1 }

/-- `LRUKReplacer::Size` (lru_k_replacer.cpp lines 141-146). -/
def replacerSizeOp (s : LRUKReplacer) : Nat := s.currSize

/-- C10 witness: a one-node replacer with a non-evictable node. -/
def c10State : LRUKReplacer :=
  ⟨4, 2, [(3, ⟨3, 1, [0], false⟩)], 0, 1⟩

/-- C4 counterexample: with capacity 1, record frame 1 (tracked, evictable),
then `RecordAccess(1)` again: the frame is already tracked, no new node
would be created, and yet the call hits the fatal assertion — refuting
"RecordAccess on an already-tracked frame never asserts". -/
def c4State : LRUKReplacer := ⟨1, 2, [(1, ⟨1, 1, [0], true⟩)], 1, 1⟩

/-! ### The spec's eviction order, and correctness of `Evict` (C2) -/

/-- Spec wording: a frame with fewer than K recorded accesses is *cold*. -/
abbrev isCold (kp : Nat) (n : LRUKNode) : Prop := n.history.length < kp

/-- The oldest retained access timestamp (`history_.front()`). -/
abbrev oldestTs (n : LRUKNode) : Nat := n.history.headD 0

/-- Spec wording of the eviction preference: cold frames dominate warm ones;
among cold frames the smaller oldest-access timestamp wins; among warm
frames the larger backward K-distance (`cur` minus the Kth-most-recent =
oldest retained timestamp) wins. -/
def prefOver (cur kp : Nat) (a b : LRUKNode) : Prop :=
  (isCold kp a ∧ ¬ isCold kp b)
  ∨ (isCold kp a ∧ isCold kp b ∧ oldestTs a < oldestTs b)
  ∨ (¬ isCold kp a ∧ ¬ isCold kp b ∧ cur - oldestTs b < cur - oldestTs a)

instance (cur kp : Nat) (a b : LRUKNode) : Decidable (prefOver cur kp a b) := by
  unfold prefOver; infer_instance

/-- States reachable by the replacer's own operations: unique keys, nonempty
histories, all recorded timestamps strictly below the clock, pairwise
distinct oldest timestamps (every timestamp is recorded exactly once), and
`curr_size_` equal to the number of evictable tracked nodes. -/
def ReplacerInv (s : LRUKReplacer) : Prop :=
  (s.nodeStore.map Prod.fst).Nodup
  ∧ (∀ e ∈ s.nodeStore, e.2.history ≠ [])
  ∧ (∀ e ∈ s.nodeStore, ∀ t ∈ e.2.history, t < s.currentTimestamp)
  ∧ (s.nodeStore.map (fun e => oldestTs e.2)).Nodup
  ∧ s.currSize = s.nodeStore.countP (fun e => e.2.isEvictable)

instance (s : LRUKReplacer) : Decidable (ReplacerInv s) := by
  unfold ReplacerInv; infer_instance

/-- Invariant of `Evict`'s scan after processing the prefix `l`: either no
evictable entry has been seen and the accumulator is untouched, or the
accumulator holds the entry that strictly beats (in the spec's order) every
other evictable entry of `l`. -/
def accOk (cur kp : Nat) (l : List (Nat × LRUKNode)) (acc : EvictAcc) : Prop :=
  (acc = ⟨none, 0, false⟩ ∧ ∀ e ∈ l, e.2.isEvictable = false)
  ∨ (∃ f n, acc.evictId = some f ∧ (f, n) ∈ l ∧ n.isEvictable = true
      ∧ acc.kDistMax = cur - oldestTs n
      ∧ acc.kDistInf = decide (isCold kp n)
      ∧ ∀ e ∈ l, e.1 ≠ f → e.2.isEvictable = true → prefOver cur kp n e.2)

/-- C2 witness: a two-node replacer (one warm, one cold) satisfying the
reachable-state invariant. -/
def c2State : LRUKReplacer :=
  ⟨4, 2, [(1, ⟨1, 2, [0, 2], true⟩), (2, ⟨2, 1, [3], true⟩)], 2, 4⟩

/-! ## Buffer pool manager (`src/buffer/buffer_pool_manager.cpp`)

`page_id_t` is `Int` with `INVALID_PAGE_ID = -1`; frame indices are `Nat`.
The disk scheduler (out of scope per the spec) is modelled as always
succeeding: a scheduled request is recorded in the returned request list,
and a read fills the buffer through the `readFn` oracle passed to
`FetchPage`.  The fatal `BUSTUB_ENSURE` on I/O failure is therefore never
reached; the fatal `BUSTUB_ASSERT` inside `RecordAccess` surfaces as the
`fatal` result. -/

def INVALID_PAGE_ID : Int := -1

/-- `Page`: current page id (`INVALID_PAGE_ID` when free), pin count, dirty
flag and the data buffer. -/
structure Page where
  pageId : Int
  pinCount : Nat
  isDirty : Bool
  data : List UInt8
deriving DecidableEq

instance : Inhabited Page := ⟨⟨INVALID_PAGE_ID, 0, false, []⟩⟩

/-- A `DiskRequest` as scheduled (page id, direction, transferred bytes). -/
structure DiskOp where
  pageId : Int
  isWrite : Bool
  data : List UInt8
deriving DecidableEq

/-- `BufferPoolManager` state.  `pages` has one entry per frame (index =
frame id). -/
structure BPM where
  poolSize : Nat
  pages : List Page
  pageTable : List (Int × Nat)
  freeList : List Nat
  replacer : LRUKReplacer
  nextPageId : Int
deriving DecidableEq

/-- `page_table_.find(pid)`. -/
def lookupTable (pid : Int) : List (Int × Nat) → Option Nat
  | [] => none
  | e :: rest => if e.1 = pid then some e.2 else lookupTable pid rest

/-- `page_table_.erase(pid)` (keys are unique). -/
def eraseTable (pid : Int) (l : List (Int × Nat)) : List (Int × Nat) :=
  l.filter (fun e => e.1 ≠ pid)

/-- The dirty-writeback of a victim frame (buffer_pool_manager.cpp lines
51-62 / 103-114): a synchronous write of the frame's current page and
bytes, issued only when the frame is dirty. -/
def writebackOps (p : Page) : List DiskOp :=
  if p.isDirty then [⟨p.pageId, true, p.data⟩] else []

/-- Result of `NewPage` / `FetchPage`: the fatal assert, the null return, or
the returned frame handle with the post state and the scheduled requests. -/
inductive BPMResult where
  | fatal
  | null (s : BPM)
  | ok (pid : Int) (frame : Nat) (s : BPM) (ops : List DiskOp)
deriving DecidableEq

/-- The shared tail of `NewPage` once a frame is reserved
(buffer_pool_manager.cpp lines 50-81): dirty writeback, `AllocatePage()`,
reset the frame metadata, fix the page table, inform the replacer. -/
def installNewPage (s : BPM) (frameId : Nat) : BPMResult :=
  let p := s.pages.getD frameId default
  let ops := writebackOps p
  let newPid := s.nextPageId
  let p' : Page := { p with pageId := newPid, pinCount := 1, isDirty := false }
  let table1 := if p.pageId ≠ INVALID_PAGE_ID then eraseTable p.pageId s.pageTable
                else s.pageTable
  match recordAccess s.replacer frameId with
  | none => .fatal
  | some r1 =>
      .ok newPid frameId
        { s with pages := s.pages.set frameId p',
                 pageTable := table1 ++ [(newPid, frameId)],
                 replacer := setEvictable r1 frameId false,
                 nextPageId := s.nextPageId + 1 } ops

/-- `BufferPoolManager::NewPage` (buffer_pool_manager.cpp lines 37-82). -/
def newPage (s : BPM) : BPMResult :=
  match s.freeList with
  | f :: rest => installNewPage { s with freeList := rest } f
  | [] =>
      match evict s.replacer with
      | (none, r') => .null { s with replacer := r' }
      | (some f, r') => installNewPage { s with replacer := r' } f

/-- The miss tail of `FetchPage` once a frame is reserved
(buffer_pool_manager.cpp lines 102-143): dirty writeback, reset the frame to
the requested page, synchronous disk read filling the buffer, fix the page
table, inform the replacer. -/
def installFetch (s : BPM) (pid : Int) (readFn : Int → List UInt8) (frameId : Nat) :
    BPMResult :=
  let p := s.pages.getD frameId default
  let ops := writebackOps p ++ [⟨pid, false, readFn pid⟩]
  let p' : Page := { p with pageId := pid, pinCount := 1, isDirty := false,
                            data := readFn pid }
  let table1 := if p.pageId ≠ INVALID_PAGE_ID then eraseTable p.pageId s.pageTable
                else s.pageTable
  match recordAccess s.replacer frameId with
  | none => .fatal
  | some r1 =>
      .ok pid frameId
        { s with pages := s.pages.set frameId p',
                 pageTable := table1 ++ [(pid, frameId)],
                 replacer := setEvictable r1 frameId false } ops

/-- `BufferPoolManager::FetchPage` (buffer_pool_manager.cpp lines 84-144).
On a page-table hit (lines 87-91) the code returns `&pages_[frame]` at once,
leaving every piece of state untouched. -/
def fetchPage (s : BPM) (pid : Int) (readFn : Int → List UInt8) : BPMResult :=
  match lookupTable pid s.pageTable with
  | some f => .ok pid f s []
  | none =>
      match s.freeList with
      | f :: rest => installFetch { s with freeList := rest } pid readFn f
      | [] =>
          match evict s.replacer with
          | (none, r') => .null { s with replacer := r' }
          | (some f, r') => installFetch { s with replacer := r' } pid readFn f

/-- `BufferPoolManager::UnpinPage` (buffer_pool_manager.cpp lines 146-172). -/
def unpinPage (s : BPM) (pid : Int) (isDirty : Bool) : Bool × BPM :=
  match lookupTable pid s.pageTable with
  | none => (false, s)
  | some f =>
      let p := s.pages.getD f default
      let p1 := if isDirty then { p with isDirty := true } else p
      if p1.pinCount > 0 then
        let p2 := { p1 with pinCount := p1.pinCount - 1 }
        let r' := if p2.pinCount = 0 then setEvictable s.replacer f true else s.replacer
        (true, { s with pages := s.pages.set f p2, replacer := r' })
      else
        (false, { s with pages := s.pages.set f p1 })

/-- `BufferPoolManager::FlushPage` (buffer_pool_manager.cpp lines 174-201). -/
def flushPage (s : BPM) (pid : Int) : Bool × BPM × List DiskOp :=
  match lookupTable pid s.pageTable with
  | none => (false, s, [])
  | some f =>
      let p := s.pages.getD f default
      (true, { s with pages := s.pages.set f { p with isDirty := false } },
        [⟨p.pageId, true, p.data⟩])

/-- C5 witness: one fully pinned frame, empty free list, nothing evictable. -/
def c5State : BPM :=
  ⟨1, [⟨5, 1, false, []⟩], [(5, 0)], [], ⟨1, 2, [(0, ⟨0, 1, [0], false⟩)], 0, 1⟩, 6⟩

/-- `UnpinPage`'s dirty-hint update (buffer_pool_manager.cpp lines
157-159): the dirty flag is ored with the hint, never cleared. -/
def Page.orDirty (p : Page) (d : Bool) : Page :=
  { p with isDirty := p.isDirty || d }

/-- The frame metadata after a successful unpin: dirty hint ored in, pin
count decremented (buffer_pool_manager.cpp lines 157-161). -/
def Page.unpinned (p : Page) (d : Bool) : Page :=
  { p with isDirty := p.isDirty || d, pinCount := p.pinCount - 1 }

/-- The frame metadata after a flush clears the dirty flag
(buffer_pool_manager.cpp line 196). -/
def Page.cleaned (p : Page) : Page :=
  { p with isDirty := false }

/-- C7 witness: a resident page with pin count 1, unpinned dirty. -/
def c7State : BPM :=
  ⟨1, [⟨5, 1, false, [7]⟩], [(5, 0)], [], ⟨1, 2, [(0, ⟨0, 1, [0], false⟩)], 0, 1⟩, 6⟩

/-- C9 witness: a resident clean page is still written out on flush. -/
def c9State : BPM :=
  ⟨1, [⟨5, 0, false, [1, 2]⟩], [(5, 0)], [], ⟨1, 2, [(0, ⟨0, 1, [0], true⟩)], 1, 1⟩, 6⟩

/-- C1 failing input: page 5 resident in frame 0 with pin count 1, tracked
non-evictable by the replacer. -/
def c1State : BPM :=
  ⟨1, [⟨5, 1, false, []⟩], [(5, 0)], [], ⟨1, 2, [(0, ⟨0, 1, [0], false⟩)], 0, 1⟩, 6⟩

/-! ## Trie operations over an explicit node heap (C6)
The C++ trie shares immutable nodes between handles through
`shared_ptr`s.  To state that `Put`/`Remove` never mutate a node reachable
from a pre-existing handle, the same trie.cpp algorithms are embedded once
more over an explicit heap: nodes live at addresses, tries are root
addresses, `make_shared`/`Clone()` allocate fresh addresses.  The C++ code
writes only into nodes it has just allocated (the path clones); those
writes are folded into the allocation itself, so a heap operation touches
the store only through `alloc`. -/

namespace HTrie

/-- Modelled from the spec: a heap-resident trie node (the `TrieNode` of the
repository's `trie.h`, which is not under `src/`), with children as heap
addresses. -/
structure HNode (V : Type) where
  children : Byte → Option Nat
  value : Option V

/-- The node store: `mem` maps addresses to live nodes, `next` is the next
fresh address.  Fresh allocation models `make_shared`. -/
structure Heap (V : Type) where
  mem : Nat → Option (HNode V)
  next : Nat

/-- Allocate a fresh node (`make_shared` / `Clone()`), returning the new
heap and the node's address. -/
def Heap.alloc (h : Heap V) (n : HNode V) : Heap V × Nat :=
  ({ mem := fun a => if a = h.next then some n else h.mem a, next := h.next + 1 }, h.next)

/-- Children of an optional root address (`root_->children_`, empty when the
pointer is null; a dangling address — impossible on well-formed heaps — also
reads as empty). -/
def chOfH (h : Heap V) : Option Nat → Byte → Option Nat
  | none => fun _ => none
  | some a =>
      match h.mem a with
      | none => fun _ => none
      | some n => n.children

/-- Value of an optional root address. -/
def valOfH (h : Heap V) : Option Nat → Option V
  | none => none
  | some a =>
      match h.mem a with
      | none => none
      | some n => n.value

/-- `children_[b] = a`. -/
def setChA (ch : Byte → Option Nat) (b : Byte) (a : Nat) : Byte → Option Nat :=
  fun b' => if b' = b then some a else ch b'

/-- `children_.erase(b)`. -/
def eraseChA (ch : Byte → Option Nat) (b : Byte) : Byte → Option Nat :=
  fun b' => if b' = b then none else ch b'

/-- `children_.size()`. -/
def chCountA (ch : Byte → Option Nat) : Nat :=
  (List.finRange 256).countP (fun b => (ch b).isSome)

/-- `Trie::Get` (trie.cpp lines 7-45) over the heap. -/
def getH (h : Heap V) : Option Nat → List Byte → Option V
  | none, _ => none
  | some a, [] => valOfH h (some a)
  | some a, b :: rest => getH h (chOfH h (some a) b) rest

/-- `Trie::Put` (trie.cpp lines 47-103) over the heap: the same recursion as
`putNode`, with every cloned or fresh node allocated at a fresh address. -/
def putH (h : Heap V) (root : Option Nat) (key : List Byte) (v : V) : Heap V × Nat :=
  match key with
  | [] => h.alloc ⟨chOfH h root, some v⟩
  | b :: rest =>
      let res := putH h (chOfH h root b) rest v
      res.1.alloc ⟨setChA (chOfH h root) b res.2, valOfH h root⟩

/-- The `Trie` handle returned by `Put`. -/
def putT (h : Heap V) (t : Option Nat) (key : List Byte) (v : V) : Heap V × Option Nat :=
  ((putH h t key v).1, some (putH h t key v).2)

/-- `Trie::Remove`'s core (trie.cpp lines 105-164) over the heap: the same
recursion as `removeNode`; rebuilt ancestors are fresh allocations, a failed
search (`none`) allocates nothing. -/
def removeH (h : Heap V) (a : Nat) : List Byte → Option (Heap V × Option Nat)
  | [] =>
      match h.mem a with
      | none => none
      | some n =>
          if chCountA n.children = 0 then some (h, none)
          else if n.value.isSome then
            let res := h.alloc ⟨n.children, none⟩
            some (res.1, some res.2)
          else none
  | b :: rest =>
      match h.mem a with
      | none => none
      | some n =>
          match n.children b with
          | none => none
          | some ca =>
              match removeH h ca rest with
              | none => none
              | some (h1, some ca') =>
                  let res := h1.alloc ⟨setChA n.children b ca', n.value⟩
                  some (res.1, some res.2)
              | some (h1, none) =>
                  if chCountA n.children < 2 ∧ n.value.isNone then some (h1, none)
                  else
                    let res := h1.alloc ⟨eraseChA n.children b, n.value⟩
                    some (res.1, some res.2)

/-- `Trie::Remove` (trie.cpp lines 105-164) over the heap. -/
def removeT (h : Heap V) (t : Option Nat) (key : List Byte) : Heap V × Option Nat :=
  match t with
  | none => (h, t)
  | some a =>
      match removeH h a key with
      | none => (h, t)
      | some res => res

/-- Well-formed heaps: every live node sits below `next` and its child
pointers are live addresses below `next` (all states built by the trie
operations from the empty heap are of this shape). -/
def Wf (h : Heap V) : Prop :=
  ∀ a n, h.mem a = some n → a < h.next ∧ ∀ b ca, n.children b = some ca → ca < h.next

/-- C6 witness: a one-node heap holding the value 7 at the root address 0. -/
def c6Heap : Heap Nat :=
  ⟨fun a => if a = 0 then some ⟨fun _ => none, some 7⟩ else none, 1⟩

end HTrie

theorem setCh_self (ch : Byte → Option (TrieNode V)) (b : Byte) (n : TrieNode V) :
    setCh ch b n b = some n := by
  simp [setCh]

theorem eraseCh_self (ch : Byte → Option (TrieNode V)) (b : Byte) :
    eraseCh ch b b = none := by
  simp [eraseCh]

theorem getRoot_cons (n : TrieNode V) (b : Byte) (rest : List Byte) :
    getRoot (some n) (b :: rest) = getRoot (n.children b) rest := by
  simp [getRoot, walk]

/-- Get after Put along the same key. -/
theorem get_putNode (key : List Byte) (root : Option (TrieNode V)) (v : V) :
    getRoot (some (putNode root key v)) key = some v := by
  induction key generalizing root with
  | nil => simp [putNode, getRoot, walk, TrieNode.value]
  | cons b rest ih =>
      rw [putNode, getRoot_cons]
      simp only [TrieNode.children, setCh_self]
      exact ih (chOf root b)

/-- Remove after Put along the same key succeeds in finding the key, and the
resulting subtree no longer binds the key. -/
theorem removeNode_putNode (key : List Byte) (root : Option (TrieNode V)) (v : V) :
    ∃ res, removeNode (putNode root key v) key = some res ∧ getRoot res key = none := by
  induction key generalizing root with
  | nil =>
      by_cases h : chCount (chOf root : Byte → Option (TrieNode V)) = 0
      · exact ⟨none, by simp [putNode, removeNode, TrieNode.children, h], by simp [getRoot, walk]⟩
      · refine ⟨some ⟨chOf root, none⟩, ?_, ?_⟩
        · simp [putNode, removeNode, TrieNode.children, TrieNode.value, h]
        · simp [getRoot, walk, TrieNode.value]
  | cons b rest ih =>
      obtain ⟨res', hrem, hget⟩ := ih (chOf root b)
      cases res' with
      | some c' =>
          refine ⟨some ⟨setCh (putNode root (b :: rest) v).children b c',
                        (putNode root (b :: rest) v).value⟩, ?_, ?_⟩
          · simp only [removeNode, putNode, TrieNode.children, setCh_self, hrem]
          · rw [getRoot_cons]
            simpa [TrieNode.children, setCh_self] using hget
      | none =>
          by_cases hcol : chCount (putNode root (b :: rest) v).children < 2 ∧
              ((putNode root (b :: rest) v).value).isNone
          · refine ⟨none, ?_, by simp [getRoot, walk]⟩
            simp only [removeNode, putNode, TrieNode.children, setCh_self, hrem]
            rw [if_pos]
            simpa [putNode] using hcol
          · refine ⟨some ⟨eraseCh (putNode root (b :: rest) v).children b,
                          (putNode root (b :: rest) v).value⟩, ?_, ?_⟩
            · simp only [removeNode, putNode, TrieNode.children, setCh_self, hrem]
              rw [if_neg]
              simpa [putNode] using hcol
            · rw [getRoot_cons]
              simp [TrieNode.children, eraseCh_self, getRoot, walk]

/-- C3.
As stated, the claim is false: `Get(k, Remove(Put(T, k, v), k))` need not
equal `Get(k, T)`.  Witnessed at `T = Put(empty, [97], 1)`, `k = [97]`,
`v = 2`: the left side is `none` (`Remove` unbinds `k`) while `Get(k, T)`
is `some 1`. -/
theorem trie_remove_put_get_counterexample :
    ¬ ((((Trie.empty Nat).put [97] 1).put [97] 2).remove [97]).get [97]
        = ((Trie.empty Nat).put [97] 1).get [97] := by
  decide

/-- C3 (amended): `Get(k, Put(T, k, v)) = v` for every prior trie `T`, and
`Get(k, Remove(Put(T, k, v), k)) = none` — which coincides with `Get(k, T)`
exactly when `k` was unbound in `T`. -/
theorem trie_put_get_remove (t : Trie V) (k : List Byte) (v : V) :
    (t.put k v).get k = some v ∧ ((t.put k v).remove k).get k = none := by
  constructor
  · exact get_putNode k t.root v
  · obtain ⟨res, hrem, hget⟩ := removeNode_putNode k t.root v
    simp only [Trie.put, Trie.remove, hrem, Trie.get]
    exact hget

/-- C8: removing the only key of a one-key trie yields a null root, with no
chain of empty interior nodes left behind. -/
theorem trie_remove_collapses_to_null_root :
    (((Trie.empty Nat).put helloKey 7).remove helloKey).root = none := by
  have h : (((Trie.empty Nat).put helloKey 7).remove helloKey).root.isNone = true := by decide
  exact Option.isNone_iff_eq_none.mp h

/-- C10: `Remove` on a tracked frame whose evictable flag is false returns
silently and leaves the replacer state (node store, history, `Size()`)
completely unchanged. -/
theorem remove_nonEvictable_noop (s : LRUKReplacer) (fid : Nat) (n : LRUKNode)
    (hfind : lookupNode fid s.nodeStore = some n) (hne : n.isEvictable = false) :
    removeFrame s fid = s := by
  simp [removeFrame, hfind, hne]

theorem remove_nonEvictable_noop_witness :
    lookupNode 3 c10State.nodeStore = some ⟨3, 1, [0], false⟩ ∧
      removeFrame c10State 3 = c10State :=
  ⟨by decide, remove_nonEvictable_noop c10State 3 ⟨3, 1, [0], false⟩ (by decide) (by decide)⟩

theorem recordAccess_tracked_asserts_counterexample :
    (lookupNode 1 c4State.nodeStore).isSome = true ∧ recordAccess c4State 1 = none := by
  decide

/-- C4 (amended): `RecordAccess` is fatal (asserts) if and only if, at entry,
the count of currently-evictable tracked frames (`curr_size_`) is at least
the configured capacity — regardless of whether the frame is already
tracked or a new node would be created. -/
theorem recordAccess_fatal_iff (s : LRUKReplacer) (fid : Nat) :
    recordAccess s fid = none ↔ s.replacerSize ≤ s.currSize := by
  by_cases h : s.replacerSize ≤ s.currSize
  · simp [recordAccess, h]
  · simp only [recordAccess, if_neg h]
    cases lookupNode fid s.nodeStore <;> simp [h]

theorem prefOver_trans {cur kp : Nat} {a b c : LRUKNode}
    (hab : prefOver cur kp a b) (hbc : prefOver cur kp b c) : prefOver cur kp a c := by
  rcases hab with ⟨ha, hb⟩ | ⟨ha, hb, hlt⟩ | ⟨ha, hb, hgt⟩ <;>
    rcases hbc with ⟨hb', hc⟩ | ⟨hb', hc, hlt'⟩ | ⟨hb', hc, hgt'⟩ <;>
      first
        | exact absurd hb' hb
        | exact absurd hb hb'
        | exact Or.inl ⟨ha, hc⟩
        | exact Or.inr (Or.inl ⟨ha, hc, Nat.lt_trans hlt hlt'⟩)
        | exact Or.inr (Or.inr ⟨ha, hc, Nat.lt_trans hgt' hgt⟩)

theorem lookupNode_eq_of_mem {l : List (Nat × LRUKNode)}
    (hnd : (l.map Prod.fst).Nodup) {f : Nat} {n : LRUKNode} (hmem : (f, n) ∈ l) :
    lookupNode f l = some n := by
  induction l with
  | nil => cases hmem
  | cons e rest ih =>
      rw [List.map_cons, List.nodup_cons] at hnd
      rcases List.mem_cons.mp hmem with heq | hmem'
      · rw [← heq]; simp [lookupNode]
      · have hne : e.1 ≠ f := fun h => hnd.1 (List.mem_map.mpr ⟨(f, n), hmem', h.symm⟩)
        simpa [lookupNode, hne] using ih hnd.2 hmem'

/-- With unique keys, two store entries sharing a key are the same entry. -/
theorem entry_eq_of_nodup_keys {l : List (Nat × LRUKNode)}
    (hnd : (l.map Prod.fst).Nodup) {f : Nat} {a : LRUKNode} {x : Nat × LRUKNode}
    (hm1 : (f, a) ∈ l) (hm2 : x ∈ l) (hx : x.1 = f) : x = (f, a) := by
  induction l with
  | nil => cases hm1
  | cons e rest ih =>
      rw [List.map_cons, List.nodup_cons] at hnd
      rcases List.mem_cons.mp hm1 with heq | hm1' <;>
        rcases List.mem_cons.mp hm2 with heq2 | hm2'
      · rw [heq2, heq]
      · exfalso
        have hmem : f ∈ rest.map Prod.fst := List.mem_map.mpr ⟨x, hm2', hx⟩
        rw [← heq] at hnd
        exact hnd.1 hmem
      · exfalso
        have hmem : f ∈ rest.map Prod.fst := List.mem_map.mpr ⟨(f, a), hm1', rfl⟩
        rw [← heq2, hx] at hnd
        exact hnd.1 hmem
      · exact ih hnd.2 hm1' hm2'

theorem lookupNode_eraseNode (f : Nat) (l : List (Nat × LRUKNode)) :
    lookupNode f (eraseNode f l) = none := by
  induction l with
  | nil => rfl
  | cons e rest ih =>
      by_cases h : e.1 = f
      · simpa [eraseNode, h] using ih
      · simpa [eraseNode, List.filter_cons, h, lookupNode] using ih

theorem best_extend_take {cur kp : Nat} {pre : List (Nat × LRUKNode)}
    {e : Nat × LRUKNode} {f : Nat} {n : LRUKNode}
    (hkeys : ((pre ++ [e]).map Prod.fst).Nodup)
    (hmem : (f, n) ∈ pre)
    (hbest : ∀ x ∈ pre, x.1 ≠ f → x.2.isEvictable = true → prefOver cur kp n x.2)
    (hpref : prefOver cur kp e.2 n) :
    ∀ x ∈ pre ++ [e], x.1 ≠ e.1 → x.2.isEvictable = true → prefOver cur kp e.2 x.2 := by
  have hkpre : (pre.map Prod.fst).Nodup := by
    rw [List.map_append] at hkeys
    exact hkeys.of_append_left
  intro x hx hne hev
  rcases List.mem_append.mp hx with hx' | hx'
  · by_cases hxf : x.1 = f
    · have hxeq : x = (f, n) := entry_eq_of_nodup_keys hkpre hmem hx' hxf
      rw [hxeq]
      exact hpref
    · exact prefOver_trans hpref (hbest x hx' hxf hev)
  · have hxe : x = e := by simpa using hx'
    exact absurd (by rw [hxe]) hne

theorem best_extend_keep {cur kp : Nat} {pre : List (Nat × LRUKNode)}
    {e : Nat × LRUKNode} {f : Nat} {n : LRUKNode}
    (hbest : ∀ x ∈ pre, x.1 ≠ f → x.2.isEvictable = true → prefOver cur kp n x.2)
    (hpref : e.1 ≠ f → e.2.isEvictable = true → prefOver cur kp n e.2) :
    ∀ x ∈ pre ++ [e], x.1 ≠ f → x.2.isEvictable = true → prefOver cur kp n x.2 := by
  intro x hx hne hev
  rcases List.mem_append.mp hx with hx' | hx'
  · exact hbest x hx' hne hev
  · have hxe : x = e := by simpa using hx'
    subst hxe
    exact hpref hne hev

/-- One step of `Evict`'s scan preserves the scan invariant. -/
theorem evictStep_ok {cur kp : Nat} {pre : List (Nat × LRUKNode)} {acc : EvictAcc}
    {e : Nat × LRUKNode}
    (hlt : ∀ x ∈ pre ++ [e], oldestTs x.2 < cur)
    (hfr : ((pre ++ [e]).map (fun x => oldestTs x.2)).Nodup)
    (hkeys : ((pre ++ [e]).map Prod.fst).Nodup)
    (hok : accOk cur kp pre acc) :
    accOk cur kp (pre ++ [e]) (evictStep cur kp acc e) := by
  have hemem : e ∈ pre ++ [e] := List.mem_append_right _ (List.mem_singleton.mpr rfl)
  have helt : oldestTs e.2 < cur := hlt e hemem
  by_cases hev : e.2.isEvictable = true
  case neg =>
    -- not evictable: the step is a no-op and `e` never matters
    have hev' : e.2.isEvictable = false := by
      cases h : e.2.isEvictable
      · rfl
      · exact absurd h hev
    rw [show evictStep cur kp acc e = acc by simp [evictStep, hev']]
    rcases hok with ⟨hacc, hall⟩ | ⟨f, n, hid, hmem, hnev, hmax, hinf, hbest⟩
    · refine Or.inl ⟨hacc, fun x hx => ?_⟩
      rcases List.mem_append.mp hx with hx' | hx'
      · exact hall x hx'
      · have hxe : x = e := by simpa using hx'
        rw [hxe]; exact hev'
    · exact Or.inr ⟨f, n, hid, List.mem_append_left _ hmem, hnev, hmax, hinf,
        best_extend_keep hbest (fun _ h => absurd h (by simp [hev']))⟩
  case pos =>
    have hstep : evictStep cur kp acc e =
        (if e.2.history.length < kp then
          if !acc.kDistInf then ⟨some e.1, cur - oldestTs e.2, true⟩
          else if cur - oldestTs e.2 > acc.kDistMax then ⟨some e.1, cur - oldestTs e.2, true⟩
          else acc
        else
          if !acc.kDistInf ∧ cur - oldestTs e.2 > acc.kDistMax then
            ⟨some e.1, cur - oldestTs e.2, acc.kDistInf⟩
          else acc) := by
      simp [evictStep, hev, oldestTs]
    rcases hok with ⟨hacc, hall⟩ | ⟨f, n, hid, hmem, hnev, hmax, hinf, hbest⟩
    · -- no evictable entry so far: `e` becomes the first candidate
      have hbest0 : ∀ x ∈ pre ++ [e], x.1 ≠ e.1 → x.2.isEvictable = true →
          prefOver cur kp e.2 x.2 := by
        intro x hx hne hevx
        rcases List.mem_append.mp hx with hx' | hx'
        · exact absurd (hall x hx') (by simp [hevx])
        · have hxe : x = e := by simpa using hx'
          exact absurd (by rw [hxe]) hne
      rw [hstep, hacc]
      by_cases hcold : isCold kp e.2
      · rw [if_pos hcold]
        simp only [Bool.not_false, if_pos rfl]
        exact Or.inr ⟨e.1, e.2, rfl, by simp, hev, rfl,
          by simp [decide_eq_true hcold], hbest0⟩
      · rw [if_neg hcold]
        have hpos : cur - oldestTs e.2 > 0 := Nat.sub_pos_of_lt helt
        rw [if_pos (by simpa using hpos)]
        exact Or.inr ⟨e.1, e.2, rfl, by simp, hev, rfl,
          by simp [decide_eq_false hcold], hbest0⟩
    · -- an incumbent (f, n) exists: compare per the code's branches
      have hnmem : (f, n) ∈ pre ++ [e] := List.mem_append_left _ hmem
      have hnlt : oldestTs n < cur := hlt (f, n) hnmem
      have hfrd : oldestTs n ≠ oldestTs e.2 := by
        rw [List.map_append, List.nodup_append] at hfr
        intro h
        exact hfr.2.2 (List.mem_map.mpr ⟨(f, n), hmem, rfl⟩) (by simpa using h)
      rw [hstep]
      by_cases hcold : isCold kp e.2
      · rw [if_pos hcold]
        by_cases hncold : isCold kp n
        · -- cold challenger vs cold incumbent: larger distance (smaller oldest) wins
          rw [hinf, decide_eq_true hncold]
          simp only [Bool.not_true, Bool.false_eq_true, if_false]
          by_cases hgt : cur - oldestTs e.2 > cur - oldestTs n
          · rw [hmax, if_pos hgt]
            have holt : oldestTs e.2 < oldestTs n := by omega
            exact Or.inr ⟨e.1, e.2, rfl, hemem, hev, rfl, by simp [decide_eq_true hcold],
              best_extend_take hkeys hmem hbest
                (Or.inr (Or.inl ⟨hcold, hncold, holt⟩))⟩
          · rw [hmax, if_neg hgt]
            have holt : oldestTs n < oldestTs e.2 := by omega
            exact Or.inr ⟨f, n, hid, hnmem, hnev, hmax, hinf,
              best_extend_keep hbest
                (fun _ _ => Or.inr (Or.inl ⟨hncold, hcold, holt⟩))⟩
        · -- cold challenger vs warm incumbent: cold wins unconditionally
          rw [hinf, decide_eq_false hncold]
          simp only [Bool.not_false, if_pos rfl]
          exact Or.inr ⟨e.1, e.2, rfl, hemem, hev, rfl, by simp [decide_eq_true hcold],
            best_extend_take hkeys hmem hbest (Or.inl ⟨hcold, hncold⟩)⟩
      · rw [if_neg hcold]
        by_cases hncold : isCold kp n
        · -- warm challenger vs cold incumbent: incumbent kept
          rw [hinf, decide_eq_true hncold]
          rw [if_neg (by simp)]
          exact Or.inr ⟨f, n, hid, hnmem, hnev, hmax, hinf,
            best_extend_keep hbest (fun _ _ => Or.inl ⟨hncold, hcold⟩)⟩
        · -- warm vs warm: strictly larger backward K-distance wins
          rw [hinf, decide_eq_false hncold, hmax]
          by_cases hgt : cur - oldestTs e.2 > cur - oldestTs n
          · rw [if_pos (by simpa using hgt)]
            exact Or.inr ⟨e.1, e.2, rfl, hemem, hev, rfl,
              by simp [decide_eq_false hncold, decide_eq_false hcold],
              best_extend_take hkeys hmem hbest
                (Or.inr (Or.inr ⟨hcold, hncold, hgt⟩))⟩
          · rw [if_neg (by simpa using hgt)]
            have hlt' : cur - oldestTs e.2 < cur - oldestTs n := by omega
            exact Or.inr ⟨f, n, hid, hnmem, hnev, hmax, hinf,
              best_extend_keep hbest
                (fun _ _ => Or.inr (Or.inr ⟨hncold, hcold, hlt'⟩))⟩

/-- `Evict`'s whole scan establishes the scan invariant over the store. -/
theorem foldl_evictStep_ok (cur kp : Nat) :
    ∀ (l pre : List (Nat × LRUKNode)) (acc : EvictAcc),
      (∀ x ∈ pre ++ l, oldestTs x.2 < cur) →
      ((pre ++ l).map (fun x => oldestTs x.2)).Nodup →
      ((pre ++ l).map Prod.fst).Nodup →
      accOk cur kp pre acc →
      accOk cur kp (pre ++ l) (l.foldl (evictStep cur kp) acc)
  | [], pre, acc, _, _, _, hok => by simpa using hok
  | e :: rest, pre, acc, hlt, hfr, hkeys, hok => by
      have happ : pre ++ e :: rest = (pre ++ [e]) ++ rest := by simp
      rw [happ] at hlt hfr hkeys ⊢
      rw [List.foldl_cons]
      refine foldl_evictStep_ok cur kp rest (pre ++ [e]) _ hlt hfr hkeys ?_
      refine evictStep_ok (fun x hx => hlt x (List.mem_append_left _ hx)) ?_ ?_ hok
      · rw [List.map_append] at hfr
        exact hfr.of_append_left
      · rw [List.map_append] at hkeys
        exact hkeys.of_append_left

/-- C2: under the replacer's reachable-state invariant, `Evict` returns null
iff no tracked frame is evictable; otherwise it returns a tracked evictable
frame that strictly beats, in the spec's order (cold over warm, earliest
first-access among cold, largest backward K-distance among warm), every
other evictable tracked frame — and that frame is no longer tracked in the
post state. -/
theorem evict_spec (s : LRUKReplacer) (hinv : ReplacerInv s) :
    ((evict s).1 = none ↔ ∀ e ∈ s.nodeStore, e.2.isEvictable = false)
    ∧ (∀ f, (evict s).1 = some f →
        ∃ n, lookupNode f s.nodeStore = some n ∧ n.isEvictable = true
          ∧ (∀ e ∈ s.nodeStore, e.1 ≠ f → e.2.isEvictable = true →
              prefOver s.currentTimestamp s.kParam n e.2)
          ∧ lookupNode f (evict s).2.nodeStore = none) := by
  obtain ⟨hkeys, hne, hts, hfr, hsize⟩ := hinv
  have hlt : ∀ x ∈ s.nodeStore, oldestTs x.2 < s.currentTimestamp := by
    intro x hx
    have hxne := hne x hx
    have hmem : x.2.history.headD 0 ∈ x.2.history := by
      cases h : x.2.history with
      | nil => exact absurd h hxne
      | cons a l => simp [h]
    exact hts x hx _ hmem
  by_cases hcs : s.currSize = 0
  · -- curr_size_ == 0: null return, and indeed nothing is evictable
    have hall : ∀ e ∈ s.nodeStore, e.2.isEvictable = false := by
      rw [hcs] at hsize
      intro e he
      have := List.countP_eq_zero.mp hsize.symm e he
      simpa using this
    have hev0 : evict s = (none, s) := by rw [evict, if_pos hcs]
    constructor
    · rw [hev0]
      exact ⟨fun _ => hall, fun _ => rfl⟩
    · intro f hf
      rw [hev0] at hf
      cases hf
  · -- curr_size_ > 0: the scan finds the strict best evictable frame
    have hok : accOk s.currentTimestamp s.kParam s.nodeStore
        (s.nodeStore.foldl (evictStep s.currentTimestamp s.kParam) ⟨none, 0, false⟩) := by
      have h := foldl_evictStep_ok s.currentTimestamp s.kParam s.nodeStore [] ⟨none, 0, false⟩
        (by simpa using hlt) (by simpa using hfr) (by simpa using hkeys)
        (Or.inl ⟨rfl, by simp⟩)
      simpa using h
    rcases hok with ⟨_, hall⟩ | ⟨f, n, hid, hmem, hnev, hmax, hinf, hbest⟩
    · -- impossible: curr_size_ > 0 but no evictable entry
      exfalso
      apply hcs
      rw [hsize]
      exact List.countP_eq_zero.mpr (fun e he => by simp [hall e he])
    · have hnlt : oldestTs n < s.currentTimestamp := hlt (f, n) hmem
      have hmax0 : (s.nodeStore.foldl (evictStep s.currentTimestamp s.kParam)
          ⟨none, 0, false⟩).kDistMax ≠ 0 := by
        rw [hmax]
        exact Nat.sub_ne_zero_of_lt hnlt
      have hevict : evict s = (some f,
          { s with nodeStore := eraseNode f s.nodeStore, currSize := s.currSize - 1 }) := by
        rw [evict, if_neg hcs, evictFinish, if_neg hmax0, hid]
      constructor
      · rw [hevict]
        constructor
        · intro h; cases h
        · intro hall
          rw [hall (f, n) hmem] at hnev
          cases hnev
      · intro f' hf'
        rw [hevict] at hf'
        have hff : f' = f := by
          simpa using hf'.symm
        subst hff
        refine ⟨n, lookupNode_eq_of_mem hkeys hmem, hnev, hbest, ?_⟩
        rw [hevict]
        exact lookupNode_eraseNode f' s.nodeStore

theorem evict_spec_witness :
    ReplacerInv c2State ∧
      ((evict c2State).1 = none ↔ ∀ e ∈ c2State.nodeStore, e.2.isEvictable = false) :=
  ⟨by decide, (evict_spec c2State (by decide)).1⟩

/-- A failed `Evict` leaves the replacer untouched (both `false` paths of
lru_k_replacer.cpp lines 22-25 and 57-60 return before mutating). -/
theorem evict_none_eq (r : LRUKReplacer) (h : (evict r).1 = none) : evict r = (none, r) := by
  unfold evict evictFinish at h ⊢
  by_cases hcs : r.currSize = 0
  · rw [if_pos hcs]
  · rw [if_neg hcs] at h ⊢
    by_cases hmax : (r.nodeStore.foldl (evictStep r.currentTimestamp r.kParam)
        ⟨none, 0, false⟩).kDistMax = 0
    · rw [if_pos hmax]
    · rw [if_neg hmax] at h ⊢
      cases hid : (r.nodeStore.foldl (evictStep r.currentTimestamp r.kParam)
          ⟨none, 0, false⟩).evictId with
      | none => rfl
      | some f =>
          rw [hid] at h
          simp at h

theorem installNewPage_ne_null (s : BPM) (f : Nat) (s' : BPM) :
    installNewPage s f ≠ .null s' := by
  unfold installNewPage
  cases recordAccess s.replacer f <;> simp

/-- C5: `NewPage` returns null exactly when the free list is empty and the
replacer has no evictable frame; in that case the whole BPM state (pages,
page table, free list, replacer, next page id) is unchanged — in particular
no page identifier is allocated. -/
theorem newPage_null_iff (s : BPM) :
    ((∃ s', newPage s = .null s') ↔ (s.freeList = [] ∧ (evict s.replacer).1 = none))
    ∧ (∀ s', newPage s = .null s' → s' = s) := by
  cases hfl : s.freeList with
  | cons f rest =>
      constructor
      · constructor
        · rintro ⟨s', hs'⟩
          rw [newPage, hfl] at hs'
          exact absurd hs' (installNewPage_ne_null _ _ _)
        · rintro ⟨h, _⟩
          exact absurd h (List.cons_ne_nil f rest)
      · intro s' hs'
        rw [newPage, hfl] at hs'
        exact absurd hs' (installNewPage_ne_null _ _ _)
  | nil =>
      cases hev : (evict s.replacer).1 with
      | none =>
          have hnp : newPage s = .null s := by
            rw [newPage, hfl, evict_none_eq s.replacer hev]
            show BPMResult.null { s with freeList := ([] : List Nat) } = BPMResult.null s
            rw [← hfl]
          constructor
          · exact ⟨fun _ => ⟨rfl, rfl⟩, fun _ => ⟨s, hnp⟩⟩
          · intro s' hs'
            rw [hnp] at hs'
            cases hs'
            rfl
      | some f =>
          have hpair : evict s.replacer = (some f, (evict s.replacer).2) := by
            conv_lhs => rw [← Prod.mk.eta (p := evict s.replacer)]
            rw [hev]
          have hnp : newPage s =
              installNewPage { s with replacer := (evict s.replacer).2 } f := by
            rw [newPage, hfl, hpair]
          constructor
          · constructor
            · rintro ⟨s', hs'⟩
              rw [hnp] at hs'
              exact absurd hs' (installNewPage_ne_null _ _ _)
            · rintro ⟨_, h⟩
              cases h
          · intro s' hs'
            rw [hnp] at hs'
            exact absurd hs' (installNewPage_ne_null _ _ _)

theorem newPage_null_iff_witness :
    (c5State.freeList = [] ∧ (evict c5State.replacer).1 = none) ∧
      (∃ s', newPage c5State = BPMResult.null s') :=
  ⟨by decide, (newPage_null_iff c5State).1.mpr (by decide)⟩

/-- C7: `UnpinPage` returns false for a non-resident page with no state
change; for a resident page it first ors the caller's dirty hint into the
frame's dirty flag (never clearing it), then returns false if the pin count
is already 0, else decrements it, marking the frame evictable in the
replacer exactly when the count reaches 0, and returns true. -/
theorem unpinPage_spec (s : BPM) (pid : Int) (d : Bool) :
    (lookupTable pid s.pageTable = none → unpinPage s pid d = (false, s))
    ∧ (∀ f, lookupTable pid s.pageTable = some f →
        ((s.pages.getD f default).pinCount = 0 → unpinPage s pid d =
          (false, { s with pages := s.pages.set f ((s.pages.getD f default).orDirty d) }))
        ∧ (0 < (s.pages.getD f default).pinCount → unpinPage s pid d =
          (true, { s with
              pages := s.pages.set f ((s.pages.getD f default).unpinned d),
              replacer := if (s.pages.getD f default).pinCount - 1 = 0
                          then setEvictable s.replacer f true
                          else s.replacer }))) := by
  constructor
  · intro h
    rw [unpinPage, h]
  · intro f hf
    constructor
    · intro hpin
      rw [unpinPage, hf]
      rw [List.getD_eq_getElem?_getD] at hpin
      cases d <;> simp [hpin, Page.orDirty]
      rw [← hpin]
    · intro hpin
      rw [unpinPage, hf]
      rw [List.getD_eq_getElem?_getD] at hpin
      cases d <;>
        simp [Nat.pos_iff_ne_zero.mp hpin, hpin, Page.unpinned]

theorem unpinPage_spec_witness :
    (lookupTable 5 c7State.pageTable = some 0 ∧ 0 < (c7State.pages.getD 0 default).pinCount) ∧
      unpinPage c7State 5 true =
        (true, { c7State with
            pages := c7State.pages.set 0 ((c7State.pages.getD 0 default).unpinned true),
            replacer := if (c7State.pages.getD 0 default).pinCount - 1 = 0
                        then setEvictable c7State.replacer 0 true
                        else c7State.replacer }) :=
  ⟨⟨by decide, by decide⟩, ((unpinPage_spec c7State 5 true).2 0 (by decide)).2 (by decide)⟩

/-- C9: `FlushPage` returns false for a non-resident page; otherwise it
schedules one synchronous write of the frame's current page id and bytes —
regardless of the dirty flag — clears the dirty flag and returns true,
changing nothing else. -/
theorem flushPage_spec (s : BPM) (pid : Int) :
    (lookupTable pid s.pageTable = none → flushPage s pid = (false, s, []))
    ∧ (∀ f, lookupTable pid s.pageTable = some f →
        flushPage s pid =
          (true, { s with pages := s.pages.set f ((s.pages.getD f default).cleaned) },
            [⟨(s.pages.getD f default).pageId, true, (s.pages.getD f default).data⟩])) := by
  constructor
  · intro h
    rw [flushPage, h]
  · intro f hf
    rw [flushPage, hf]
    rfl

theorem flushPage_spec_witness :
    lookupTable 5 c9State.pageTable = some 0 ∧
      flushPage c9State 5 =
        (true, { c9State with pages := c9State.pages.set 0 ((c9State.pages.getD 0 default).cleaned) },
          [⟨(c9State.pages.getD 0 default).pageId, true,
            (c9State.pages.getD 0 default).data⟩]) :=
  ⟨by decide, (flushPage_spec c9State 5).2 0 (by decide)⟩

/-- C1: on a page-table hit `FetchPage` returns the frame handle but leaves
the BPM state bit-for-bit unchanged (buffer_pool_manager.cpp lines 87-91):
the pin count stays 1, no access is recorded in the replacer and the frame
is not marked non-evictable — contradicting the claimed hit behaviour. -/
theorem fetchPage_hit_leaves_state_unchanged :
    fetchPage c1State 5 (fun _ => []) = .ok 5 0 c1State []
    ∧ (c1State.pages.getD 0 default).pinCount = 1
    ∧ lookupNode 0 c1State.replacer.nodeStore = some ⟨0, 1, [0], false⟩ := by
  refine ⟨?_, by decide, by decide⟩
  rw [fetchPage]
  rfl

namespace HTrie

theorem alloc_mem_lt (h : Heap V) (n : HNode V) {a : Nat} (ha : a < h.next) :
    ((h.alloc n).1).mem a = h.mem a := by
  simp only [Heap.alloc]
  rw [if_neg (Nat.ne_of_lt ha)]

theorem alloc_next (h : Heap V) (n : HNode V) : h.next ≤ ((h.alloc n).1).next :=
  Nat.le_succ h.next

/-- `Put` only allocates: the heap above is an extension of the heap below,
agreeing on every pre-existing address. -/
theorem putH_frame (key : List Byte) :
    ∀ (h : Heap V) (root : Option Nat) (v : V),
      h.next ≤ (putH h root key v).1.next ∧
        ∀ a, a < h.next → (putH h root key v).1.mem a = h.mem a := by
  induction key with
  | nil =>
      intro h root v
      exact ⟨alloc_next h _, fun a ha => alloc_mem_lt h _ ha⟩
  | cons b rest ih =>
      intro h root v
      obtain ⟨hn, hm⟩ := ih h (chOfH h root b) v
      constructor
      · calc h.next ≤ (putH h (chOfH h root b) rest v).1.next := hn
          _ ≤ _ := alloc_next _ _
      · intro a ha
        rw [putH]
        calc ((putH h (chOfH h root b) rest v).1.alloc _).1.mem a
            = (putH h (chOfH h root b) rest v).1.mem a :=
              alloc_mem_lt _ _ (Nat.lt_of_lt_of_le ha hn)
          _ = h.mem a := hm a ha

/-- `Remove` only allocates (and allocates nothing at all when the key is
not found). -/
theorem removeH_frame (key : List Byte) :
    ∀ (h : Heap V) (a : Nat) (h' : Heap V) (r : Option Nat),
      removeH h a key = some (h', r) →
      h.next ≤ h'.next ∧ ∀ x, x < h.next → h'.mem x = h.mem x := by
  induction key with
  | nil =>
      intro h a h' r hrem
      cases hmem : h.mem a with
      | none =>
          rw [removeH, hmem] at hrem
          exact absurd (show (none : Option (Heap V × Option Nat)) = some (h', r) from hrem)
            (by simp)
      | some n =>
          rw [removeH, hmem] at hrem
          have hrem1 : (if chCountA n.children = 0 then some (h, (none : Option Nat))
              else if n.value.isSome then
                some ((h.alloc ⟨n.children, none⟩).1, some (h.alloc ⟨n.children, none⟩).2)
              else none) = some (h', r) := hrem
          by_cases hc : chCountA n.children = 0
          · rw [if_pos hc] at hrem1
            cases hrem1
            exact ⟨Nat.le_refl _, fun _ _ => rfl⟩
          · rw [if_neg hc] at hrem1
            by_cases hv : n.value.isSome
            · rw [if_pos hv] at hrem1
              cases hrem1
              exact ⟨alloc_next h _, fun x hx => alloc_mem_lt h _ hx⟩
            · rw [if_neg hv] at hrem1
              cases hrem1
  | cons b rest ih =>
      intro h a h' r hrem
      cases hmem : h.mem a with
      | none =>
          rw [removeH, hmem] at hrem
          exact absurd (show (none : Option (Heap V × Option Nat)) = some (h', r) from hrem)
            (by simp)
      | some n =>
          rw [removeH, hmem] at hrem
          have hrem1 : (match n.children b with
              | none => none
              | some ca =>
                  match removeH h ca rest with
                  | none => none
                  | some (h1, some ca') =>
                      some ((h1.alloc ⟨setChA n.children b ca', n.value⟩).1,
                        some (h1.alloc ⟨setChA n.children b ca', n.value⟩).2)
                  | some (h1, none) =>
                      if chCountA n.children < 2 ∧ n.value.isNone then some (h1, none)
                      else
                        some ((h1.alloc ⟨eraseChA n.children b, n.value⟩).1,
                          some (h1.alloc ⟨eraseChA n.children b, n.value⟩).2))
              = some (h', r) := hrem
          cases hch : n.children b with
          | none =>
              rw [hch] at hrem1
              exact absurd (show (none : Option (Heap V × Option Nat)) = some (h', r)
                from hrem1) (by simp)
          | some ca =>
              rw [hch] at hrem1
              have hrem1b : (match removeH h ca rest with
                  | none => none
                  | some (h1, some ca') =>
                      some ((h1.alloc ⟨setChA n.children b ca', n.value⟩).1,
                        some (h1.alloc ⟨setChA n.children b ca', n.value⟩).2)
                  | some (h1, none) =>
                      if chCountA n.children < 2 ∧ n.value.isNone then some (h1, none)
                      else
                        some ((h1.alloc ⟨eraseChA n.children b, n.value⟩).1,
                          some (h1.alloc ⟨eraseChA n.children b, n.value⟩).2))
                  = some (h', r) := hrem1
              cases hrec : removeH h ca rest with
              | none =>
                  rw [hrec] at hrem1b
                  exact absurd (show (none : Option (Heap V × Option Nat)) = some (h', r)
                    from hrem1b) (by simp)
              | some res =>
                  obtain ⟨h1, r1⟩ := res
                  obtain ⟨h1n, h1m⟩ := ih h ca h1 r1 hrec
                  rw [hrec] at hrem1b
                  cases r1 with
                  | some ca' =>
                      have hrem2 :
                          some ((h1.alloc ⟨setChA n.children b ca', n.value⟩).1,
                            some (h1.alloc ⟨setChA n.children b ca', n.value⟩).2)
                          = some (h', r) := hrem1b
                      cases hrem2
                      refine ⟨Nat.le_trans h1n (alloc_next _ _), fun x hx => ?_⟩
                      rw [alloc_mem_lt _ _ (Nat.lt_of_lt_of_le hx h1n)]
                      exact h1m x hx
                  | none =>
                      have hrem2 : (if chCountA n.children < 2 ∧ n.value.isNone
                          then some (h1, (none : Option Nat))
                          else
                            some ((h1.alloc ⟨eraseChA n.children b, n.value⟩).1,
                              some (h1.alloc ⟨eraseChA n.children b, n.value⟩).2))
                          = some (h', r) := hrem1b
                      by_cases hcol : chCountA n.children < 2 ∧ n.value.isNone
                      · rw [if_pos hcol] at hrem2
                        cases hrem2
                        exact ⟨h1n, h1m⟩
                      · rw [if_neg hcol] at hrem2
                        cases hrem2
                        refine ⟨Nat.le_trans h1n (alloc_next _ _), fun x hx => ?_⟩
                        rw [alloc_mem_lt _ _ (Nat.lt_of_lt_of_le hx h1n)]
                        exact h1m x hx

/-- `Get` only reads live addresses, so it is insensitive to pure heap
extension. -/
theorem getH_congr (key : List Byte) :
    ∀ (h h' : Heap V) (root : Option Nat),
      Wf h → (∀ a, a < h.next → h'.mem a = h.mem a) →
      (∀ a, root = some a → a < h.next) →
      getH h' root key = getH h root key := by
  induction key with
  | nil =>
      intro h h' root hwf hm hroot
      cases root with
      | none => rfl
      | some a =>
          have ha := hroot a rfl
          rw [getH, getH, valOfH, valOfH, hm a ha]
  | cons b rest ih =>
      intro h h' root hwf hm hroot
      cases root with
      | none => rfl
      | some a =>
          have ha := hroot a rfl
          rw [getH, getH]
          have hch : chOfH h' (some a) = chOfH h (some a) := by
            rw [chOfH, chOfH, hm a ha]
          rw [hch]
          cases hmem : h.mem a with
          | none =>
              have : chOfH h (some a) b = none := by rw [chOfH, hmem]
              rw [this]
              exact ih h h' none hwf hm (fun x hx => by cases hx)
          | some n =>
              refine ih h h' (chOfH h (some a) b) hwf hm ?_
              intro x hx
              have hchx : n.children b = some x := by
                rw [chOfH, hmem] at hx
                exact hx
              exact ((hwf a n hmem).2) b x hchx

/-- C6: neither `Put` nor `Remove` changes what a previously existing trie
handle observes: every pre-existing node is bit-for-bit unchanged in the
heap, and `Get` along any key from any valid pre-existing root returns the
same result after the operation as before. -/
theorem put_remove_preserve (h : Heap V) (hwf : Wf h) (t troot : Option Nat)
    (htroot : ∀ a, troot = some a → a < h.next) (k k' : List Byte) (v : V) :
    getH (putT h t k v).1 troot k' = getH h troot k'
    ∧ getH (removeT h t k).1 troot k' = getH h troot k'
    ∧ (∀ x, (h.mem x).isSome →
        (putT h t k v).1.mem x = h.mem x ∧ (removeT h t k).1.mem x = h.mem x) := by
  obtain ⟨hpn, hpm⟩ := putH_frame k h t v
  have hrm : h.next ≤ (removeT h t k).1.next ∧
      ∀ x, x < h.next → (removeT h t k).1.mem x = h.mem x := by
    cases t with
    | none => exact ⟨Nat.le_refl _, fun _ _ => rfl⟩
    | some a =>
        rw [removeT]
        cases hrem : removeH h a k with
        | none => exact ⟨Nat.le_refl _, fun _ _ => rfl⟩
        | some res =>
            obtain ⟨h1, r1⟩ := res
            exact removeH_frame k h a h1 r1 hrem
  have hmemlt : ∀ x, (h.mem x).isSome → x < h.next := by
    intro x hx
    cases hmem : h.mem x with
    | none => rw [hmem] at hx; cases hx
    | some n => exact (hwf x n hmem).1
  refine ⟨getH_congr k' h _ troot hwf hpm htroot,
    getH_congr k' h _ troot hwf hrm.2 htroot, fun x hx => ?_⟩
  exact ⟨hpm x (hmemlt x hx), hrm.2 x (hmemlt x hx)⟩

theorem c6Heap_wf : Wf c6Heap := by
  intro a n hmem
  by_cases ha : a = 0
  · subst ha
    rw [show c6Heap.mem 0 = some ⟨fun _ => none, some 7⟩ from rfl] at hmem
    cases hmem
    exact ⟨Nat.zero_lt_one, fun b ca hca => by cases hca⟩
  · rw [show c6Heap.mem a = (if a = 0 then some ⟨fun _ => none, some 7⟩ else none) from rfl,
      if_neg ha] at hmem
    cases hmem

theorem put_remove_preserve_witness :
    Wf c6Heap ∧
      (getH (putT c6Heap (some 0) [97] 5).1 (some 0) [] = getH c6Heap (some 0) []
        ∧ getH (removeT c6Heap (some 0) [97]).1 (some 0) [] = getH c6Heap (some 0) []) :=
  ⟨c6Heap_wf,
    (put_remove_preserve c6Heap c6Heap_wf (some 0) (some 0)
      (fun a ha => by cases ha; exact Nat.zero_lt_one) [97] [] 5).1,
    (put_remove_preserve c6Heap c6Heap_wf (some 0) (some 0)
      (fun a ha => by cases ha; exact Nat.zero_lt_one) [97] [] 5).2.1⟩

end HTrie

end Bustub
